import Mathlib

/-!
Shallow embedding of the conclave voting simulation (`conclave.py`,
`round_results.py`, `cardinal.py`).

Python dicts are modelled as insertion-ordered association lists
(`List (String × Nat)` etc.), since the winner scan and the frontrunner
display iterate in insertion order.  The text-generation oracle is
modelled as an external outcome per agent (either a raw response string,
or an error), and `random.choice` as an externally supplied index into
the eligible list.  Rational numbers stand in for Python floats in the
support-ratio computation.
-/

namespace Conclave

/-- A single vote in a cardinal's history (`cardinal.py`, `VotingRecord`). -/
structure VotingRecord where
  round : Nat
  voted_for : String
deriving DecidableEq, Repr

/-- A cardinal: name, leaning, bio and accumulated voting history
(`cardinal.py`, `Cardinal`; the bio/history file paths are load-time
concerns and are elided). -/
structure Cardinal where
  name : String
  political_leaning : Rat
  bio : String
  voting_history : List VotingRecord
deriving DecidableEq, Repr

/-- The outcome of one round (`round_results.py`, `RoundResult`). -/
structure RoundResult where
  round_number : Nat
  votes : List (String × Nat)
  winner : Option String
deriving DecidableEq, Repr

/-- `cardinal.save_vote`: append a record to the cardinal's history. -/
def save_vote (c : Cardinal) (round_number : Nat) (voted_for : String) : Cardinal :=
  { c with voting_history := c.voting_history ++ [⟨round_number, voted_for⟩] }

/-- The round ledger: the set of round-result files on disk, modelled as a
list of stored outcomes (one per file). -/
def Ledger : Type := List RoundResult

/-- `RoundResults.save_round_result`: write the outcome keyed by its round
number, overwriting any existing entry for that number. -/
def save_round_result (ledger : List RoundResult) (rr : RoundResult) : List RoundResult :=
  if ledger.any (fun x => x.round_number == rr.round_number) then
    ledger.map (fun x => if x.round_number == rr.round_number then rr else x)
  else
    ledger ++ [rr]

/-- `RoundResults.get_round_result`: the stored outcome for a round number,
or `none` if no such file exists. -/
def get_round_result (ledger : List RoundResult) (round_number : Nat) : Option RoundResult :=
  ledger.find? (fun x => x.round_number == round_number)

/-- `RoundResults.get_latest_round_result`: `max` over the stored files,
keyed by the round number parsed from the file name. -/
def get_latest_round_result (ledger : List RoundResult) : Option RoundResult :=
  match ledger with
  | [] => none
  | x :: xs =>
    some (xs.foldl (fun acc y => if acc.round_number < y.round_number then y else acc) x)

/-- The combining-diacritical-marks block, standing in for
`unicodedata.combining(c) != 0`. -/
def combining (c : Char) : Bool :=
  decide (0x300 ≤ c.toNat ∧ c.toNat ≤ 0x36F)

/-- Combining acute accent U+0301. -/
def acuteAccent : Char := Char.ofNat 0x301

/-- Combining tilde U+0303. -/
def tildeAccent : Char := Char.ofNat 0x303

/-- Combining diaeresis U+0308. -/
def diaeresisAccent : Char := Char.ofNat 0x308

/-- Canonical decomposition of one character
(`unicodedata.normalize('NFKD', ...)`), as a minimal decomposition table
for the accented characters expected in the roster. -/
def nfkd_char (c : Char) : List Char :=
  if c = 'á' then ['a', acuteAccent]
  else if c = 'é' then ['e', acuteAccent]
  else if c = 'í' then ['i', acuteAccent]
  else if c = 'ó' then ['o', acuteAccent]
  else if c = 'ú' then ['u', acuteAccent]
  else if c = 'Á' then ['A', acuteAccent]
  else if c = 'É' then ['E', acuteAccent]
  else if c = 'ñ' then ['n', tildeAccent]
  else if c = 'ü' then ['u', diaeresisAccent]
  else [c]

/-- NFKD decomposition of a string, character by character. -/
def nfkd (s : List Char) : List Char := s.flatMap nfkd_char

/-- Remove diacritics: drop the combining marks left by decomposition. -/
def stripMarks (s : List Char) : List Char := s.filter (fun c => !combining c)

/-- One step of `str.split()`: fold a character onto (current word, words). -/
def wordsAux (c : Char) (acc : List Char × List (List Char)) :
    List Char × List (List Char) :=
  if c.isWhitespace then ([], if acc.1 = [] then acc.2 else acc.1 :: acc.2)
  else (c :: acc.1, acc.2)

/-- `str.split()`: split on whitespace runs, dropping empty pieces. -/
def splitWords (s : List Char) : List (List Char) :=
  let sp := s.foldr wordsAux ([], [])
  if sp.1 = [] then sp.2 else sp.1 :: sp.2

/-- `' '.join(name.split())` followed by `.lower()`, after decomposition
and mark stripping: the character-level body of `_normalize_name`. -/
def normalizeChars (s : List Char) : List Char :=
  (List.intercalate [' '] (splitWords (stripMarks (nfkd s)))).map Char.toLower

/-- `Conclave._normalize_name`. -/
def normalize_name (s : String) : String := String.mk (normalizeChars s.data)

/-- `Conclave._find_matching_cardinal`: first roster name whose normalized
form equals the normalized vote text. -/
def find_matching_cardinal (cardinals : List Cardinal) (voted_name : String) :
    Option String :=
  (cardinals.find? (fun c => normalize_name c.name == normalize_name voted_name)).map
    Cardinal.name

/-- What the oracle call produced for one agent: a raw completion string,
or a raised `OracleError`. -/
inductive OracleOutcome where
  | ok (raw : String)
  | error
deriving DecidableEq, Repr

/-- `random.choice(eligible_cardinals)`, with the randomness supplied
externally as a natural number. -/
def random_choice (eligible : List String) (rand : Nat) : String :=
  eligible.getD (rand % eligible.length) ""

/-- Python's `max(items, key=lambda x: x[1])`: the first element attaining
the maximal second component (replacement only on strict increase). -/
def maxBySupport (l : List (String × Rat)) : Option (String × Rat) :=
  match l with
  | [] => none
  | x :: xs => some (xs.foldl (fun acc y => if acc.2 < y.2 then y else acc) x)

/-- The invalid-response fallback (`run_voting_round`, `else` branch):
previous vote, else best frontrunner, else random choice. -/
def invalid_fallback (c : Cardinal) (frontrunners : List (String × Rat))
    (eligible : List String) (rand : Nat) : String :=
  match c.voting_history.getLast? with
  | some vr => vr.voted_for
  | none =>
    match maxBySupport frontrunners with
    | some p => p.1
    | none => random_choice eligible rand

/-- The oracle-error fallback (`run_voting_round`, `except` branch):
previous vote, else random choice — the frontrunner set is not consulted. -/
def error_fallback (c : Cardinal) (eligible : List String) (rand : Nat) : String :=
  match c.voting_history.getLast? with
  | some vr => vr.voted_for
  | none => random_choice eligible rand

/-- The vote settled for one agent's turn: resolve the raw response and
validate against the eligible list, falling back per policy. -/
def agent_vote (cardinals : List Cardinal) (eligible : List String)
    (frontrunners : List (String × Rat)) (c : Cardinal)
    (oracle : OracleOutcome) (rand : Nat) : String :=
  match oracle with
  | OracleOutcome.error => error_fallback c eligible rand
  | OracleOutcome.ok raw =>
    match find_matching_cardinal cardinals raw with
    | some v => if v ∈ eligible then v else invalid_fallback c frontrunners eligible rand
    | none => invalid_fallback c frontrunners eligible rand

/-- `votes[voted_for] = votes.get(voted_for, 0) + 1` on an
insertion-ordered mapping. -/
def incVote (votes : List (String × Nat)) (name : String) : List (String × Nat) :=
  if votes.any (fun p => p.1 == name) then
    votes.map (fun p => if p.1 == name then (p.1, p.2 + 1) else p)
  else
    votes ++ [(name, 1)]

/-- The per-agent loop of `run_voting_round`: thread the tally through the
cardinals, recording each settled vote in the tally and in the voting
cardinal's history.  `idx` numbers the turns so that each turn draws its
own oracle outcome and random value. -/
def collect_votes (cardinals0 : List Cardinal) (eligible : List String)
    (frontrunners : List (String × Rat)) (round_number : Nat)
    (oracle : Nat → OracleOutcome) (rand : Nat → Nat) :
    List Cardinal → Nat → List (String × Nat) → List (String × Nat) × List Cardinal
  | [], _, votes => (votes, [])
  | c :: rest, idx, votes =>
    let v := agent_vote cardinals0 eligible frontrunners c (oracle idx) (rand idx)
    let out := collect_votes cardinals0 eligible frontrunners round_number oracle rand
      rest (idx + 1) (incVote votes v)
    (out.1, save_vote c round_number v :: out.2)

/-- `required_votes = (len(self.cardinals) * 2 // 3) + 1`. -/
def required_votes (roster_size : Nat) : Nat := roster_size * 2 / 3 + 1

/-- The winner scan of `run_voting_round`: first candidate in tally
insertion order whose count reaches the threshold. -/
def find_winner (votes : List (String × Nat)) (required : Nat) : Option String :=
  (votes.find? (fun p => decide (required ≤ p.2))).map Prod.fst

/-- `Conclave._update_frontrunners`: support ratios from this round's
votes, keeping those strictly above 0.15. -/
def update_frontrunners (votes : List (String × Nat)) : List (String × Rat) :=
  let total_votes := (votes.map Prod.snd).sum
  let support_ratios := votes.map (fun p => (p.1, (p.2 : Rat) / (total_votes : Rat)))
  support_ratios.filter (fun p => (0.15 : Rat) < p.2)

/-- First-occurrence lookup in the tally (`votes[name]`). -/
def lookupVotes (votes : List (String × Nat)) (name : String) : Option Nat :=
  (votes.find? (fun p => p.1 == name)).map Prod.snd

/-- The mutable state of a `Conclave` object. -/
structure ConclaveState where
  cardinals : List Cardinal
  round_number : Nat
  pope_elected : Bool
  winner : Option String
  frontrunners : List (String × Rat)
  ledger : List RoundResult

/-- `Conclave.__init__`: fresh election state over a fixed roster. -/
def init_conclave (cardinals : List Cardinal) : ConclaveState :=
  { cardinals := cardinals
    round_number := 0
    pope_elected := false
    winner := none
    frontrunners := []
    ledger := [] }

/-- `Conclave.run_voting_round`: one full round — increment the round
number, collect all votes, detect the winner, persist the outcome, and
recompute the frontrunners from this round's tally. -/
def run_voting_round (s : ConclaveState) (oracle : Nat → OracleOutcome)
    (rand : Nat → Nat) : ConclaveState × RoundResult :=
  let round_number := s.round_number + 1
  let eligible := s.cardinals.map Cardinal.name
  let collected := collect_votes s.cardinals eligible s.frontrunners round_number
    oracle rand s.cardinals 0 []
  let votes := collected.1
  let required := required_votes s.cardinals.length
  let winner := find_winner votes required
  let round_result : RoundResult :=
    { round_number := round_number, votes := votes, winner := winner }
  ({ cardinals := collected.2
     round_number := round_number
     pope_elected := if winner.isSome then true else s.pope_elected
     winner := if winner.isSome then winner else s.winner
     frontrunners := update_frontrunners votes
     ledger := save_round_result s.ledger round_result }, round_result)

/-- Run `run_voting_round` a given number of times, each round drawing its
oracle outcomes and random values from the per-round families. -/
def run_rounds (oracle : Nat → Nat → OracleOutcome) (rand : Nat → Nat → Nat) :
    Nat → ConclaveState → ConclaveState
  | 0, s => s
  | n + 1, s =>
    run_rounds oracle rand n
      (run_voting_round s (oracle s.round_number) (rand s.round_number)).1

/-- One syntactic piece of the voting prompt built by
`Conclave._get_voting_prompt`, in the order the source appends them. -/
inductive PromptPart where
  | header (name : String) (bio : String) (leaning : Rat) (round : Nat)
  | frontrunner (name : String) (support : Rat)
  | noFrontrunners
  | prevRoundHeader
  | prevVoteCount (name : String) (count : Nat)
  | lastVote (name : String)
  | eligibleHeader
  | eligibleName (name : String)
  | instructions
deriving DecidableEq, Repr

/-- `Conclave._get_voting_prompt`, abstracted to the ordered list of
pieces appended to the prompt string.  The previous round is looked up in
the ledger; the "You previously voted for" line is emitted inside the
previous-round block, exactly as in the source. -/
def get_voting_prompt (ledger : List RoundResult)
    (frontrunners : List (String × Rat)) (round_number : Nat)
    (c : Cardinal) (eligible : List String) : List PromptPart :=
  let previous_round := get_round_result ledger (round_number - 1)
  [PromptPart.header c.name c.bio c.political_leaning round_number]
  ++ (if frontrunners.isEmpty then [PromptPart.noFrontrunners]
      else frontrunners.map (fun p => PromptPart.frontrunner p.1 p.2))
  ++ (match previous_round with
      | none => []
      | some pr =>
        [PromptPart.prevRoundHeader]
        ++ pr.votes.map (fun p => PromptPart.prevVoteCount p.1 p.2)
        ++ (match c.voting_history.getLast? with
            | some vr => [PromptPart.lastVote vr.voted_for]
            | none => []))
  ++ [PromptPart.eligibleHeader]
  ++ eligible.map PromptPart.eligibleName
  ++ [PromptPart.instructions]

/-- Sample cardinal with an empty voting history. -/
def cardA : Cardinal := ⟨"Pietro Parolin", 0, "bio A", []⟩

/-- Sample cardinal with an empty voting history. -/
def cardB : Cardinal := ⟨"Jose Gomez", 0, "bio B", []⟩

/-- Sample cardinal with an empty voting history. -/
def cardC : Cardinal := ⟨"Luis Tagle", 0, "bio C", []⟩

/-- Sample cardinal who voted for Luis Tagle in round 1. -/
def cardBvoted : Cardinal := ⟨"Jose Gomez", 0, "bio B", [⟨1, "Luis Tagle"⟩]⟩

/-- A three-cardinal sample roster. -/
def sampleRoster : List Cardinal := [cardA, cardB, cardC]

/-- A sample stored outcome for round 1. -/
def rr1 : RoundResult := ⟨1, [("Pietro Parolin", 3)], some "Pietro Parolin"⟩

/-- A sample stored outcome for round 3. -/
def rr3 : RoundResult := ⟨3, [("Jose Gomez", 2), ("Luis Tagle", 1)], none⟩

/-- A find? hit splits the list at the first satisfying element. -/
theorem find?_split {α : Type} (p : α → Bool) (l : List α) (a : α)
    (h : l.find? p = some a) :
    p a = true ∧ ∃ l₁ l₂, l = l₁ ++ a :: l₂ ∧ ∀ x ∈ l₁, p x = false := by
  induction l with
  | nil => simp [List.find?] at h
  | cons x xs ih =>
    by_cases hx : p x = true
    · rw [List.find?_cons_of_pos _ hx] at h
      cases h
      exact ⟨hx, [], xs, rfl, by simp⟩
    · rw [List.find?_cons_of_neg _ hx] at h
      obtain ⟨hp, l₁, l₂, rfl, hfail⟩ := ih h
      refine ⟨hp, x :: l₁, l₂, rfl, ?_⟩
      intro y hy
      rcases List.mem_cons.1 hy with rfl | hy
      · exact Bool.eq_false_iff.2 hx
      · exact hfail y hy

/-- If the predicate fails on all of the second part, find? over an append
searches only the first part. -/
theorem find?_append_of_fail_right {α : Type} (p : α → Bool) (l₁ l₂ : List α)
    (h : ∀ x ∈ l₂, p x = false) :
    (l₁ ++ l₂).find? p = l₁.find? p := by
  induction l₁ with
  | nil =>
    simp only [List.nil_append, List.find?_nil]
    rw [List.find?_eq_none]
    intro x hx
    simp [h x hx]
  | cons x xs ih =>
    by_cases hx : p x = true
    · rw [List.cons_append, List.find?_cons_of_pos _ hx, List.find?_cons_of_pos _ hx]
    · rw [List.cons_append, List.find?_cons_of_neg _ hx, List.find?_cons_of_neg _ hx, ih]

/-- If the predicate fails on all of the first part, find? over an append
searches the second part. -/
theorem find?_append_of_fail {α : Type} (p : α → Bool) (l₁ l₂ : List α)
    (h : ∀ x ∈ l₁, p x = false) :
    (l₁ ++ l₂).find? p = l₂.find? p := by
  induction l₁ with
  | nil => rfl
  | cons x xs ih =>
    have hx : p x = false := h x (List.mem_cons_self x xs)
    simp only [List.cons_append]
    rw [List.find?_cons_of_neg _ (by simp [hx]), ih]
    intro y hy
    exact h y (List.mem_cons_of_mem x hy)

/-- The accumulator's key never decreases along the python-max fold. -/
theorem foldl_pymax_le {α β : Type} [LinearOrder β] (f : α → β) :
    ∀ (xs : List α) (x : α),
      f x ≤ f (xs.foldl (fun acc y => if f acc < f y then y else acc) x) := by
  intro xs
  induction xs with
  | nil => intro x; exact le_refl _
  | cons y ys ih =>
    intro x
    simp only [List.foldl_cons]
    by_cases h : f x < f y
    · simp only [if_pos h]
      exact le_of_lt (lt_of_lt_of_le h (ih y))
    · simp only [if_neg h]
      exact ih x

/-- The python-max fold (replacement only on strict increase) returns the
first element attaining the maximum: everything before it is strictly
smaller, everything after it no larger. -/
theorem foldl_pymax_split {α β : Type} [LinearOrder β] (f : α → β) :
    ∀ (xs : List α) (x : α), ∃ l₁ l₂,
      x :: xs = l₁ ++ (xs.foldl (fun acc y => if f acc < f y then y else acc) x) :: l₂ ∧
      (∀ y ∈ l₁, f y < f (xs.foldl (fun acc y => if f acc < f y then y else acc) x)) ∧
      (∀ y ∈ l₂, f y ≤ f (xs.foldl (fun acc y => if f acc < f y then y else acc) x)) := by
  intro xs
  induction xs with
  | nil => intro x; exact ⟨[], [], rfl, by simp, by simp⟩
  | cons y ys ih =>
    intro x
    simp only [List.foldl_cons]
    by_cases h : f x < f y
    · simp only [if_pos h]
      obtain ⟨l₁, l₂, heq, hlt, hle⟩ := ih y
      refine ⟨x :: l₁, l₂, by rw [List.cons_append, ← heq], ?_, hle⟩
      intro z hz
      rcases List.mem_cons.1 hz with rfl | hz
      · exact lt_of_lt_of_le h (foldl_pymax_le f ys y)
      · exact hlt z hz
    · simp only [if_neg h]
      obtain ⟨l₁, l₂, heq, hlt, hle⟩ := ih x
      cases l₁ with
      | nil =>
        simp only [List.nil_append] at heq
        obtain ⟨hx1, hx2⟩ := List.cons_eq_cons.mp heq
        refine ⟨[], y :: l₂, ?_, by simp, ?_⟩
        · rw [List.nil_append, ← hx1, ← hx2]
        · intro z hz
          rcases List.mem_cons.1 hz with rfl | hz
          · rw [← hx1]; exact le_of_not_lt h
          · exact hle z hz
      | cons w t =>
        simp only [List.cons_append] at heq
        obtain ⟨hx1, hx2⟩ := List.cons_eq_cons.mp heq
        have hxlt : f x < f (List.foldl (fun acc y => if f acc < f y then y else acc) x ys) := by
          apply hlt
          rw [hx1]
          exact List.mem_cons_self w t
        refine ⟨x :: y :: t, l₂, ?_, ?_, hle⟩
        · simp only [List.cons_append]
          rw [← hx2]
        · intro z hz
          rcases List.mem_cons.1 hz with rfl | hz
          · exact hxlt
          · rcases List.mem_cons.1 hz with rfl | hz
            · exact lt_of_le_of_lt (le_of_not_lt h) hxlt
            · exact hlt z (List.mem_cons_of_mem w hz)

/-- C7: `getLatest` returns the stored outcome with the numerically
highest round number (a max over whatever rounds exist, not a counter),
`none` on an empty ledger; with rounds 1 and 3 stored it returns round
3's outcome. -/
theorem get_latest_is_max (ledger : List RoundResult) :
    (ledger = [] → get_latest_round_result ledger = none) ∧
    (ledger ≠ [] → ∃ rr, get_latest_round_result ledger = some rr ∧ rr ∈ ledger ∧
      ∀ x ∈ ledger, x.round_number ≤ rr.round_number) ∧
    (∀ ra rb : RoundResult, ra.round_number = 1 → rb.round_number = 3 →
      get_latest_round_result [ra, rb] = some rb) := by
  refine ⟨?_, ?_, ?_⟩
  · intro h; subst h; rfl
  · intro hne
    match ledger with
    | [] => exact absurd rfl hne
    | x :: xs =>
      refine ⟨_, rfl, ?_, ?_⟩
      · obtain ⟨l₁, l₂, heq, _, _⟩ := foldl_pymax_split RoundResult.round_number xs x
        rw [heq]
        exact List.mem_append.2 (Or.inr (List.mem_cons_self _ _))
      · intro z hz
        obtain ⟨l₁, l₂, heq, hlt, hle⟩ := foldl_pymax_split RoundResult.round_number xs x
        rw [heq] at hz
        rcases List.mem_append.1 hz with hz | hz
        · exact le_of_lt (hlt z hz)
        · rcases List.mem_cons.1 hz with rfl | hz
          · exact le_refl _
          · exact hle z hz
  · intro ra rb ha hb
    simp [get_latest_round_result, ha, hb]

/-- Witness for C7: with outcomes for rounds 1 and 3 stored (and round 2
missing), `getLatest` returns round 3's outcome. -/
theorem get_latest_is_max_witness :
    get_latest_round_result [rr1, rr3] = some rr3 :=
  (get_latest_is_max [rr1, rr3]).2.2 rr1 rr3 rfl rfl

/-- C10: saving an outcome makes it retrievable under its round number,
leaves every other round number's lookup unchanged, and lookups of
never-saved round numbers return `none`. -/
theorem save_get_roundtrip (ledger : List RoundResult) (rr : RoundResult) :
    get_round_result (save_round_result ledger rr) rr.round_number = some rr ∧
    (∀ k, k ≠ rr.round_number →
      get_round_result (save_round_result ledger rr) k = get_round_result ledger k) ∧
    (∀ k, (∀ x ∈ ledger, x.round_number ≠ k) → get_round_result ledger k = none) := by
  refine ⟨?_, ?_, ?_⟩
  · unfold save_round_result get_round_result
    by_cases hany : ledger.any (fun x => x.round_number == rr.round_number) = true
    · rw [if_pos hany]
      induction ledger with
      | nil => simp at hany
      | cons x xs ih =>
        simp only [List.any_cons, Bool.or_eq_true] at hany
        by_cases hx : x.round_number = rr.round_number
        · simp only [List.map_cons, if_pos (beq_iff_eq.2 hx)]
          rw [List.find?_cons_of_pos _ (by simp)]
        · simp only [List.map_cons, if_neg ((beq_iff_eq (a := x.round_number)).ne.2 hx)]
          rw [List.find?_cons_of_neg _ (by simp [hx])]
          apply ih
          rcases hany with hx' | htail
          · exact absurd (beq_iff_eq.1 hx') hx
          · exact htail
    · rw [if_neg hany]
      rw [find?_append_of_fail]
      · rw [List.find?_cons_of_pos _ (by simp)]
      · intro x hx
        simp only [List.any_eq_true, not_exists, not_and] at hany
        exact Bool.eq_false_iff.2 (hany x hx)
  · intro k hk
    unfold save_round_result get_round_result
    by_cases hany : ledger.any (fun x => x.round_number == rr.round_number) = true
    · rw [if_pos hany]
      clear hany
      induction ledger with
      | nil => rfl
      | cons x xs ih =>
        by_cases hx : x.round_number = rr.round_number
        · simp only [List.map_cons, if_pos (beq_iff_eq.2 hx)]
          rw [List.find?_cons_of_neg _ (by simp [Ne.symm hk]),
            List.find?_cons_of_neg _ (by simp [hx, Ne.symm hk]), ih]
        · simp only [List.map_cons, if_neg ((beq_iff_eq (a := x.round_number)).ne.2 hx)]
          by_cases hxk : x.round_number = k
          · rw [List.find?_cons_of_pos _ (by simp [hxk]),
              List.find?_cons_of_pos _ (by simp [hxk])]
          · rw [List.find?_cons_of_neg _ (by simp [hxk]),
              List.find?_cons_of_neg _ (by simp [hxk]), ih]
    · rw [if_neg hany]
      rw [find?_append_of_fail_right]
      intro x hx
      rcases List.mem_singleton.1 hx with rfl
      simp [Ne.symm hk]
  · intro k hk
    unfold get_round_result
    rw [List.find?_eq_none]
    intro x hx
    simp [hk x hx]

/-- Witness for C10: after saving round 3 on a ledger holding round 1,
round 3 is retrievable, round 1's lookup is untouched, and round 2 (never
saved) is `none`. -/
theorem save_get_roundtrip_witness :
    get_round_result (save_round_result [rr1] rr3) 3 = some rr3 ∧
    get_round_result (save_round_result [rr1] rr3) 1 = get_round_result [rr1] 1 ∧
    get_round_result [rr1] 2 = none := by
  have h := save_get_roundtrip [rr1] rr3
  exact ⟨h.1, h.2.1 1 (by decide), h.2.2 2 (by decide)⟩

/-- C3: on an `OracleError`, an agent with non-empty history re-casts its
most recent prior vote, for every frontrunner state (and every random
draw) — the error branch never consults the frontrunners. -/
theorem error_fallback_prior_vote (cardinals : List Cardinal) (eligible : List String)
    (fr fr' : List (String × Rat)) (c : Cardinal) (rand rand' : Nat)
    (round_number : Nat) (vr : VotingRecord)
    (h : c.voting_history.getLast? = some vr) :
    agent_vote cardinals eligible fr c OracleOutcome.error rand = vr.voted_for ∧
    agent_vote cardinals eligible fr c OracleOutcome.error rand =
      agent_vote cardinals eligible fr' c OracleOutcome.error rand' ∧
    (save_vote c round_number
        (agent_vote cardinals eligible fr c OracleOutcome.error rand)).voting_history.getLast?
      = some ⟨round_number, vr.voted_for⟩ := by
  refine ⟨?_, ?_, ?_⟩
  · simp [agent_vote, error_fallback, h]
  · simp [agent_vote, error_fallback, h]
  · simp [agent_vote, error_fallback, h, save_vote]

/-- Witness for C3: a cardinal who previously voted for Luis Tagle votes
for Luis Tagle again on an oracle error, under a non-empty frontrunner
state. -/
theorem error_fallback_prior_vote_witness :
    agent_vote sampleRoster ["Pietro Parolin", "Jose Gomez", "Luis Tagle"]
      [("Pietro Parolin", 0.2)] cardBvoted OracleOutcome.error 7 = "Luis Tagle" :=
  (error_fallback_prior_vote sampleRoster
    ["Pietro Parolin", "Jose Gomez", "Luis Tagle"] [("Pietro Parolin", 0.2)] []
    cardBvoted 7 7 2 ⟨1, "Luis Tagle"⟩ (by decide)).1

/-- Incrementing a vote count leaves the key list unchanged (existing key)
or appends the new key. -/
theorem incVote_keys (votes : List (String × Nat)) (v : String) :
    (incVote votes v).map Prod.fst = votes.map Prod.fst ∨
    (incVote votes v).map Prod.fst = votes.map Prod.fst ++ [v] := by
  unfold incVote
  by_cases h : votes.any (fun p => p.1 == v) = true
  · left
    rw [if_pos h, List.map_map]
    apply List.map_congr_left
    intro p _
    by_cases hp : (p.1 == v) = true
    · rw [Function.comp_apply, if_pos hp]
    · rw [Function.comp_apply, if_neg hp]
  · right
    rw [if_neg h]
    simp

/-- Incrementing a vote count preserves key distinctness. -/
theorem incVote_nodup (votes : List (String × Nat)) (v : String)
    (h : (votes.map Prod.fst).Nodup) : ((incVote votes v).map Prod.fst).Nodup := by
  unfold incVote
  by_cases hany : votes.any (fun p => p.1 == v) = true
  · rw [if_pos hany, List.map_map]
    have hid : votes.map (Prod.fst ∘ fun p => if p.1 == v then (p.1, p.2 + 1) else p)
        = votes.map Prod.fst := by
      apply List.map_congr_left
      intro p _
      by_cases hp : (p.1 == v) = true
      · rw [Function.comp_apply, if_pos hp]
      · rw [Function.comp_apply, if_neg hp]
    rw [hid]
    exact h
  · rw [if_neg hany, List.map_append, List.nodup_append]
    refine ⟨h, by simp, ?_⟩
    intro k hk1 hk2
    simp only [List.map_cons, List.map_nil, List.mem_singleton] at hk2
    subst hk2
    simp only [List.any_eq_true, not_exists, not_and] at hany
    rcases List.mem_map.1 hk1 with ⟨q, hq, hqv⟩
    exact hany q hq (beq_iff_eq.2 hqv)

/-- Updating entries whose key is absent from a list is the identity. -/
theorem map_update_id (l : List (String × Nat)) (v : String)
    (h : ∀ p ∈ l, (p.1 == v) = false) :
    l.map (fun p => if p.1 == v then (p.1, p.2 + 1) else p) = l := by
  induction l with
  | nil => rfl
  | cons x xs ih =>
    have hx := h x (List.mem_cons_self x xs)
    simp only [List.map_cons, hx]
    rw [if_neg (by simp [hx]), ih]
    intro p hp
    exact h p (List.mem_cons_of_mem x hp)

/-- With distinct keys, incrementing one vote raises the total by one. -/
theorem incVote_sum (votes : List (String × Nat)) (v : String)
    (h : (votes.map Prod.fst).Nodup) :
    ((incVote votes v).map Prod.snd).sum = (votes.map Prod.snd).sum + 1 := by
  unfold incVote
  by_cases hany : votes.any (fun p => p.1 == v) = true
  · rw [if_pos hany]
    obtain ⟨q, hfind⟩ : ∃ q, votes.find? (fun p => p.1 == v) = some q := by
      obtain ⟨p, hp, hpv⟩ := List.any_eq_true.1 hany
      have : (votes.find? (fun p => p.1 == v)).isSome = true :=
        List.find?_isSome.2 ⟨p, hp, hpv⟩
      exact Option.isSome_iff_exists.1 this
    obtain ⟨hq, l₁, l₂, hsplit, hfail⟩ := find?_split _ _ _ hfind
    subst hsplit
    have hv : q.1 = v := beq_iff_eq.1 hq
    have hnd := h
    rw [List.map_append, List.map_cons, List.nodup_append] at hnd
    have hl₂ : ∀ p ∈ l₂, (p.1 == v) = false := by
      intro p hp
      rw [Bool.eq_false_iff]
      intro hpv
      have hq1 : q.1 ∉ List.map Prod.fst l₂ := (List.nodup_cons.1 hnd.2.1).1
      have hpq : p.1 = q.1 := (beq_iff_eq.1 hpv).trans hv.symm
      exact hq1 (hpq ▸ List.mem_map_of_mem Prod.fst hp)
    rw [List.map_append, List.map_cons, map_update_id _ _ hfail, map_update_id _ _ hl₂]
    simp only [hq, if_true, List.map_append, List.map_cons, List.sum_append, List.sum_cons]
    omega
  · rw [if_neg hany]
    simp [List.sum_append]

/-- Every key of the incremented tally is an old key or the voted name. -/
theorem incVote_mem_keys (votes : List (String × Nat)) (v k : String)
    (hk : k ∈ (incVote votes v).map Prod.fst) :
    k ∈ votes.map Prod.fst ∨ k = v := by
  rcases incVote_keys votes v with h | h
  · rw [h] at hk; exact Or.inl hk
  · rw [h] at hk
    rcases List.mem_append.1 hk with hk | hk
    · exact Or.inl hk
    · exact Or.inr (List.mem_singleton.1 hk)

/-- Incrementing preserves positivity of all counts. -/
theorem incVote_pos (votes : List (String × Nat)) (v : String)
    (h : ∀ p ∈ votes, 1 ≤ p.2) : ∀ p ∈ incVote votes v, 1 ≤ p.2 := by
  unfold incVote
  by_cases hany : votes.any (fun p => p.1 == v) = true
  · rw [if_pos hany]
    intro p hp
    rcases List.mem_map.1 hp with ⟨q, hq, rfl⟩
    by_cases hqv : (q.1 == v) = true
    · rw [if_pos hqv]
      exact Nat.succ_le_succ (Nat.zero_le q.2)
    · rw [if_neg hqv]
      exact h q hq
  · rw [if_neg hany]
    intro p hp
    rcases List.mem_append.1 hp with hp | hp
    · exact h p hp
    · rcases List.mem_singleton.1 hp with rfl
      exact le_refl 1

/-- The random fallback picks a member of a non-empty eligible list. -/
theorem random_choice_mem (eligible : List String) (rand : Nat)
    (h : eligible ≠ []) : random_choice eligible rand ∈ eligible := by
  unfold random_choice
  have hlen : 0 < eligible.length := List.length_pos.2 h
  have hmod : rand % eligible.length < eligible.length := Nat.mod_lt _ hlen
  rw [List.getD_eq_getElem?_getD, List.getElem?_eq_getElem hmod]
  exact List.getElem_mem hmod

/-- The python-max over a list returns one of its elements. -/
theorem maxBySupport_mem (l : List (String × Rat)) (p : String × Rat)
    (h : maxBySupport l = some p) : p ∈ l := by
  match l with
  | [] => cases h
  | x :: xs =>
    obtain ⟨l₁, l₂, heq, _, _⟩ := foldl_pymax_split Prod.snd xs x
    unfold maxBySupport at h
    cases h
    rw [heq]
    exact List.mem_append.2 (Or.inr (List.mem_cons_self _ _))

/-- A getLast? hit is a member of the list. -/
theorem mem_of_getLast? {α : Type} {l : List α} {a : α}
    (h : l.getLast? = some a) : a ∈ l := by
  match l with
  | [] => cases h
  | x :: xs =>
    rw [List.getLast?_eq_getLast (x :: xs) (by simp)] at h
    cases h
    exact List.getLast_mem _

/-- The invalid-response fallback yields an eligible name provided prior
votes and frontrunner keys stay inside the eligible list. -/
theorem invalid_fallback_mem (c : Cardinal) (fr : List (String × Rat))
    (eligible : List String) (rand : Nat)
    (hne : eligible ≠ [])
    (hh : ∀ vr ∈ c.voting_history, vr.voted_for ∈ eligible)
    (hf : ∀ p ∈ fr, p.1 ∈ eligible) :
    invalid_fallback c fr eligible rand ∈ eligible := by
  unfold invalid_fallback
  cases hl : c.voting_history.getLast? with
  | some vr => exact hh vr (mem_of_getLast? hl)
  | none =>
    cases hm : maxBySupport fr with
    | some p => exact hf p (maxBySupport_mem fr p hm)
    | none => exact random_choice_mem eligible rand hne

/-- Whatever the oracle produced, the settled vote of one turn is an
eligible name, provided prior votes and frontrunner keys are eligible. -/
theorem agent_vote_mem (cardinals : List Cardinal) (eligible : List String)
    (fr : List (String × Rat)) (c : Cardinal) (o : OracleOutcome) (rand : Nat)
    (hne : eligible ≠ [])
    (hh : ∀ vr ∈ c.voting_history, vr.voted_for ∈ eligible)
    (hf : ∀ p ∈ fr, p.1 ∈ eligible) :
    agent_vote cardinals eligible fr c o rand ∈ eligible := by
  cases o with
  | error =>
    simp only [agent_vote, error_fallback]
    cases hl : c.voting_history.getLast? with
    | some vr => exact hh vr (mem_of_getLast? hl)
    | none => exact random_choice_mem eligible rand hne
  | ok raw =>
    cases hm : find_matching_cardinal cardinals raw with
    | some v =>
      by_cases hv : v ∈ eligible
      · simp [agent_vote, hm, hv]
      · simp only [agent_vote, hm, if_neg hv]
        exact invalid_fallback_mem c fr eligible rand hne hh hf
    | none =>
      simp only [agent_vote, hm]
      exact invalid_fallback_mem c fr eligible rand hne hh hf

/-- Along the voting loop the tally keeps distinct keys and its total
grows by exactly one per agent. -/
theorem collect_votes_sum_nodup (cardinals0 : List Cardinal) (eligible : List String)
    (fr : List (String × Rat)) (round_number : Nat)
    (oracle : Nat → OracleOutcome) (rand : Nat → Nat) :
    ∀ (rest : List Cardinal) (idx : Nat) (votes : List (String × Nat)),
      (votes.map Prod.fst).Nodup →
      (((collect_votes cardinals0 eligible fr round_number oracle rand rest idx votes).1.map
          Prod.fst).Nodup ∧
       ((collect_votes cardinals0 eligible fr round_number oracle rand rest idx votes).1.map
          Prod.snd).sum = (votes.map Prod.snd).sum + rest.length) := by
  intro rest
  induction rest with
  | nil => intro idx votes h; exact ⟨h, by simp [collect_votes]⟩
  | cons c rest ih =>
    intro idx votes h
    unfold collect_votes
    simp only []
    obtain ⟨ihn, ihs⟩ := ih (idx + 1)
      (incVote votes (agent_vote cardinals0 eligible fr c (oracle idx) (rand idx)))
      (incVote_nodup _ _ h)
    refine ⟨ihn, ?_⟩
    rw [ihs, incVote_sum _ _ h]
    simp only [List.length_cons]
    omega

/-- Along the voting loop, every tally key is an old key or an eligible
name. -/
theorem collect_votes_keys (cardinals0 : List Cardinal) (eligible : List String)
    (fr : List (String × Rat)) (round_number : Nat)
    (oracle : Nat → OracleOutcome) (rand : Nat → Nat)
    (hne : eligible ≠ []) (hf : ∀ p ∈ fr, p.1 ∈ eligible) :
    ∀ (rest : List Cardinal) (idx : Nat) (votes : List (String × Nat)),
      (∀ c ∈ rest, ∀ vr ∈ c.voting_history, vr.voted_for ∈ eligible) →
      ∀ k ∈ (collect_votes cardinals0 eligible fr round_number oracle rand
          rest idx votes).1.map Prod.fst,
        k ∈ votes.map Prod.fst ∨ k ∈ eligible := by
  intro rest
  induction rest with
  | nil =>
    intro idx votes _ k hk
    exact Or.inl hk
  | cons c rest ih =>
    intro idx votes hrest k hk
    unfold collect_votes at hk
    simp only [] at hk
    rcases ih (idx + 1) _ (fun d hd => hrest d (List.mem_cons_of_mem c hd)) k hk with hk' | hk'
    · rcases incVote_mem_keys _ _ _ hk' with hk'' | rfl
      · exact Or.inl hk''
      · exact Or.inr (agent_vote_mem cardinals0 eligible fr c (oracle idx) (rand idx)
          hne (hrest c (List.mem_cons_self c rest)) hf)
    · exact Or.inr hk'

/-- Along the voting loop, every tally count stays at least one. -/
theorem collect_votes_pos (cardinals0 : List Cardinal) (eligible : List String)
    (fr : List (String × Rat)) (round_number : Nat)
    (oracle : Nat → OracleOutcome) (rand : Nat → Nat) :
    ∀ (rest : List Cardinal) (idx : Nat) (votes : List (String × Nat)),
      (∀ p ∈ votes, 1 ≤ p.2) →
      ∀ p ∈ (collect_votes cardinals0 eligible fr round_number oracle rand
          rest idx votes).1, 1 ≤ p.2 := by
  intro rest
  induction rest with
  | nil => intro idx votes h; exact h
  | cons c rest ih =>
    intro idx votes h
    unfold collect_votes
    simp only []
    exact ih (idx + 1) _ (incVote_pos _ _ h)

/-- The round's persisted tally is the one collected from the agents. -/
theorem round_votes_eq (s : ConclaveState) (oracle : Nat → OracleOutcome)
    (rand : Nat → Nat) :
    (run_voting_round s oracle rand).2.votes =
      (collect_votes s.cardinals (s.cardinals.map Cardinal.name) s.frontrunners
        (s.round_number + 1) oracle rand s.cardinals 0 []).1 := rfl

/-- The round's persisted winner is the winner scan over its tally. -/
theorem round_winner_eq (s : ConclaveState) (oracle : Nat → OracleOutcome)
    (rand : Nat → Nat) :
    (run_voting_round s oracle rand).2.winner =
      find_winner (run_voting_round s oracle rand).2.votes
        (required_votes s.cardinals.length) := rfl

/-- After the round, the frontrunner state is recomputed from the round's
tally. -/
theorem round_frontrunners_eq (s : ConclaveState) (oracle : Nat → OracleOutcome)
    (rand : Nat → Nat) :
    (run_voting_round s oracle rand).1.frontrunners =
      update_frontrunners (run_voting_round s oracle rand).2.votes := rfl

/-- After the round, the ledger holds the saved outcome. -/
theorem round_ledger_eq (s : ConclaveState) (oracle : Nat → OracleOutcome)
    (rand : Nat → Nat) :
    (run_voting_round s oracle rand).1.ledger =
      save_round_result s.ledger (run_voting_round s oracle rand).2 := rfl

/-- The round number is incremented at the start of the round. -/
theorem round_number_eq (s : ConclaveState) (oracle : Nat → OracleOutcome)
    (rand : Nat → Nat) :
    (run_voting_round s oracle rand).1.round_number = s.round_number + 1 := rfl

/-- The persisted outcome carries the incremented round number. -/
theorem round_result_number_eq (s : ConclaveState) (oracle : Nat → OracleOutcome)
    (rand : Nat → Nat) :
    (run_voting_round s oracle rand).2.round_number = s.round_number + 1 := rfl

/-- The tally collected in a round has distinct keys. -/
theorem round_votes_nodup (s : ConclaveState) (oracle : Nat → OracleOutcome)
    (rand : Nat → Nat) :
    ((run_voting_round s oracle rand).2.votes.map Prod.fst).Nodup := by
  rw [round_votes_eq]
  exact (collect_votes_sum_nodup s.cardinals (s.cardinals.map Cardinal.name)
    s.frontrunners (s.round_number + 1) oracle rand s.cardinals 0 [] (by simp)).1

/-- The tally collected in a round sums to the roster size. -/
theorem round_votes_sum (s : ConclaveState) (oracle : Nat → OracleOutcome)
    (rand : Nat → Nat) :
    ((run_voting_round s oracle rand).2.votes.map Prod.snd).sum = s.cardinals.length := by
  rw [round_votes_eq]
  have h := (collect_votes_sum_nodup s.cardinals (s.cardinals.map Cardinal.name)
    s.frontrunners (s.round_number + 1) oracle rand s.cardinals 0 [] (by simp)).2
  simpa using h

/-- With distinct keys, a split at an entry determines the lookup. -/
theorem lookupVotes_split (votes : List (String × Nat)) (w : String) (cnt : Nat)
    (l₁ l₂ : List (String × Nat)) (hsplit : votes = l₁ ++ (w, cnt) :: l₂)
    (hnd : (votes.map Prod.fst).Nodup) :
    lookupVotes votes w = some cnt := by
  subst hsplit
  unfold lookupVotes
  rw [find?_append_of_fail]
  · rw [List.find?_cons_of_pos _ (by simp)]
    rfl
  · intro p hp
    rw [List.map_append, List.map_cons, List.nodup_append] at hnd
    rw [Bool.eq_false_iff]
    intro hpw
    exact hnd.2.2 (List.mem_map_of_mem Prod.fst hp)
      (by rw [beq_iff_eq.1 hpw]; exact List.mem_cons_self _ _)

/-- C1: the round's winner is set iff some tally count meets the
supermajority threshold `floor(rosterSize*2/3)+1`; when set, the winner is
the first candidate in tally insertion order whose count meets the
threshold, and the winner's recorded count is at least the threshold. -/
theorem winner_supermajority (s : ConclaveState) (oracle : Nat → OracleOutcome)
    (rand : Nat → Nat) :
    ((run_voting_round s oracle rand).2.winner.isSome = true ↔
      ∃ p ∈ (run_voting_round s oracle rand).2.votes,
        required_votes s.cardinals.length ≤ p.2) ∧
    ∀ w, (run_voting_round s oracle rand).2.winner = some w →
      (∃ l₁ cnt l₂, (run_voting_round s oracle rand).2.votes = l₁ ++ (w, cnt) :: l₂ ∧
        required_votes s.cardinals.length ≤ cnt ∧
        ∀ q ∈ l₁, q.2 < required_votes s.cardinals.length) ∧
      ∃ cnt, lookupVotes (run_voting_round s oracle rand).2.votes w = some cnt ∧
        required_votes s.cardinals.length ≤ cnt := by
  constructor
  · rw [round_winner_eq]
    unfold find_winner
    constructor
    · intro hsome
      rcases Option.isSome_iff_exists.1 hsome with ⟨w, hw⟩
      rcases Option.map_eq_some'.1 hw with ⟨q, hfind, _⟩
      obtain ⟨hq, _, _, _, _⟩ := find?_split _ _ _ hfind
      exact ⟨q, List.mem_of_find?_eq_some hfind, of_decide_eq_true hq⟩
    · rintro ⟨p, hp, hle⟩
      have hsome : (List.find? (fun p => decide (required_votes s.cardinals.length ≤ p.2))
          (run_voting_round s oracle rand).2.votes).isSome = true :=
        List.find?_isSome.2 ⟨p, hp, decide_eq_true hle⟩
      rcases Option.isSome_iff_exists.1 hsome with ⟨q, hq⟩
      rw [hq]
      rfl
  · intro w hw
    rw [round_winner_eq] at hw
    unfold find_winner at hw
    rcases Option.map_eq_some'.1 hw with ⟨q, hfind, rfl⟩
    obtain ⟨hq, l₁, l₂, hsplit, hfail⟩ := find?_split _ _ _ hfind
    have hnd := round_votes_nodup s oracle rand
    refine ⟨⟨l₁, q.2, l₂, hsplit, of_decide_eq_true hq, ?_⟩, ?_⟩
    · intro p hp
      have hfp := hfail p hp
      rw [decide_eq_false_iff_not] at hfp
      exact Nat.lt_of_not_le hfp
    · exact ⟨q.2, lookupVotes_split _ _ _ l₁ l₂ hsplit hnd, of_decide_eq_true hq⟩

/-- Witness for C1: with three cardinals all voting Pietro Parolin, the
winner's recorded count meets the threshold `floor(3*2/3)+1 = 3`. -/
theorem winner_supermajority_witness :
    ∃ cnt, lookupVotes (run_voting_round (init_conclave sampleRoster)
        (fun _ => OracleOutcome.ok "Pietro Parolin") (fun _ => 0)).2.votes
        "Pietro Parolin" = some cnt ∧
      required_votes (init_conclave sampleRoster).cardinals.length ≤ cnt :=
  ((winner_supermajority (init_conclave sampleRoster)
    (fun _ => OracleOutcome.ok "Pietro Parolin") (fun _ => 0)).2
    "Pietro Parolin" (by decide)).2

/-- C2: the round's persisted tally sums to the roster size — every
agent's vote, real or fallback, is counted exactly once — and its keys lie
inside the fixed roster, provided prior histories and frontrunner keys
refer to roster members. -/
theorem round_tally_conservation (s : ConclaveState) (oracle : Nat → OracleOutcome)
    (rand : Nat → Nat)
    (hh : ∀ c ∈ s.cardinals, ∀ vr ∈ c.voting_history,
      vr.voted_for ∈ s.cardinals.map Cardinal.name)
    (hfr : ∀ p ∈ s.frontrunners, p.1 ∈ s.cardinals.map Cardinal.name) :
    ((run_voting_round s oracle rand).2.votes.map Prod.snd).sum = s.cardinals.length ∧
    ∀ p ∈ (run_voting_round s oracle rand).2.votes,
      p.1 ∈ s.cardinals.map Cardinal.name := by
  refine ⟨round_votes_sum s oracle rand, ?_⟩
  intro p hp
  by_cases hcs : s.cardinals = []
  · rw [round_votes_eq, hcs] at hp
    simp [collect_votes] at hp
  · rw [round_votes_eq] at hp
    have hne : s.cardinals.map Cardinal.name ≠ [] := by
      intro h
      exact hcs (List.map_eq_nil_iff.1 h)
    have hk := collect_votes_keys s.cardinals (s.cardinals.map Cardinal.name)
      s.frontrunners (s.round_number + 1) oracle rand hne hfr s.cardinals 0 [] hh
      p.1 (List.mem_map_of_mem Prod.fst hp)
    rcases hk with h | h
    · simp at h
    · exact h

/-- Witness for C2: on the three-cardinal roster with all oracle calls
resolving to Pietro Parolin, the tally sums to 3 and its keys are roster
names. -/
theorem round_tally_conservation_witness :
    (((run_voting_round (init_conclave sampleRoster)
        (fun _ => OracleOutcome.ok "Pietro Parolin") (fun _ => 0)).2.votes.map
        Prod.snd).sum = (init_conclave sampleRoster).cardinals.length) ∧
    ∀ p ∈ (run_voting_round (init_conclave sampleRoster)
        (fun _ => OracleOutcome.ok "Pietro Parolin") (fun _ => 0)).2.votes,
      p.1 ∈ (init_conclave sampleRoster).cardinals.map Cardinal.name :=
  round_tally_conservation (init_conclave sampleRoster)
    (fun _ => OracleOutcome.ok "Pietro Parolin") (fun _ => 0)
    (by decide) (by decide)

/-- C5: after a round the frontrunner set is recomputed from that round's
tally alone — each voted candidate mapped to count/rosterSize, keeping
ratios strictly above 0.15 — and a candidate with no votes in the round is
absent from it. -/
theorem frontrunners_from_tally (s : ConclaveState) (oracle : Nat → OracleOutcome)
    (rand : Nat → Nat) :
    (run_voting_round s oracle rand).1.frontrunners =
      update_frontrunners (run_voting_round s oracle rand).2.votes ∧
    (run_voting_round s oracle rand).1.frontrunners =
      ((run_voting_round s oracle rand).2.votes.map
        (fun p => (p.1, (p.2 : Rat) / (s.cardinals.length : Rat)))).filter
        (fun p => (0.15 : Rat) < p.2) ∧
    ∀ name, (∀ p ∈ (run_voting_round s oracle rand).2.votes, p.1 ≠ name) →
      ∀ q ∈ (run_voting_round s oracle rand).1.frontrunners, q.1 ≠ name := by
  refine ⟨round_frontrunners_eq s oracle rand, ?_, ?_⟩
  · rw [round_frontrunners_eq]
    unfold update_frontrunners
    rw [round_votes_sum s oracle rand]
  · intro name hname q hq
    rw [round_frontrunners_eq] at hq
    unfold update_frontrunners at hq
    rcases List.mem_filter.1 hq with ⟨hqmem, _⟩
    rcases List.mem_map.1 hqmem with ⟨p, hp, rfl⟩
    exact hname p hp

/-- Witness for C5: on a concrete round, the frontrunner state equals the
recomputation from the round's tally, and a name absent from the tally is
absent from the frontrunner set. -/
theorem frontrunners_from_tally_witness :
    (run_voting_round (init_conclave sampleRoster)
        (fun _ => OracleOutcome.ok "Pietro Parolin") (fun _ => 0)).1.frontrunners =
      update_frontrunners (run_voting_round (init_conclave sampleRoster)
        (fun _ => OracleOutcome.ok "Pietro Parolin") (fun _ => 0)).2.votes ∧
    ∀ q ∈ (run_voting_round (init_conclave sampleRoster)
        (fun _ => OracleOutcome.ok "Pietro Parolin") (fun _ => 0)).1.frontrunners,
      q.1 ≠ "Jose Gomez" :=
  ⟨(frontrunners_from_tally (init_conclave sampleRoster)
      (fun _ => OracleOutcome.ok "Pietro Parolin") (fun _ => 0)).1,
   (frontrunners_from_tally (init_conclave sampleRoster)
      (fun _ => OracleOutcome.ok "Pietro Parolin") (fun _ => 0)).2.2
      "Jose Gomez" (by decide)⟩

/-- If every stored round number is at most the current round number, a
round appends exactly the new round number to the ledger keys. -/
theorem run_voting_round_ledger_keys (s : ConclaveState) (oracle : Nat → OracleOutcome)
    (rand : Nat → Nat)
    (h : ∀ k ∈ s.ledger.map RoundResult.round_number, k ≤ s.round_number) :
    (run_voting_round s oracle rand).1.ledger.map RoundResult.round_number =
      s.ledger.map RoundResult.round_number ++ [s.round_number + 1] := by
  rw [round_ledger_eq]
  unfold save_round_result
  rw [round_result_number_eq]
  have hany : (s.ledger.any fun x => x.round_number == s.round_number + 1) = false := by
    rw [Bool.eq_false_iff]
    intro hx
    obtain ⟨x, hxmem, hxeq⟩ := List.any_eq_true.1 hx
    have := h x.round_number (List.mem_map_of_mem RoundResult.round_number hxmem)
    rw [beq_iff_eq.1 hxeq] at this
    omega
  rw [if_neg (by rw [hany]; exact Bool.false_ne_true)]
  simp [round_result_number_eq]

/-- Running n rounds from a state whose ledger keys are bounded by its
round number extends the keys by the next n round numbers in order. -/
theorem run_rounds_ledger_keys (oracle : Nat → Nat → OracleOutcome)
    (rand : Nat → Nat → Nat) :
    ∀ (n : Nat) (s : ConclaveState),
      (∀ k ∈ s.ledger.map RoundResult.round_number, k ≤ s.round_number) →
      (run_rounds oracle rand n s).round_number = s.round_number + n ∧
      (run_rounds oracle rand n s).ledger.map RoundResult.round_number =
        s.ledger.map RoundResult.round_number ++ List.range' (s.round_number + 1) n := by
  intro n
  induction n with
  | zero => intro s _; exact ⟨rfl, by simp [run_rounds]⟩
  | succ n ih =>
    intro s hbound
    have hkeys := run_voting_round_ledger_keys s (oracle s.round_number)
      (rand s.round_number) hbound
    have hbound' : ∀ k ∈ (run_voting_round s (oracle s.round_number)
        (rand s.round_number)).1.ledger.map RoundResult.round_number,
        k ≤ (run_voting_round s (oracle s.round_number) (rand s.round_number)).1.round_number := by
      intro k hk
      rw [hkeys] at hk
      rw [round_number_eq]
      rcases List.mem_append.1 hk with hk | hk
      · exact le_trans (hbound k hk) (Nat.le_succ _)
      · rcases List.mem_singleton.1 hk with rfl
        exact le_refl _
    obtain ⟨ihn, ihk⟩ := ih (run_voting_round s (oracle s.round_number)
      (rand s.round_number)).1 hbound'
    constructor
    · show (run_rounds oracle rand n _).round_number = _
      rw [ihn, round_number_eq]
      omega
    · show (run_rounds oracle rand n _).ledger.map RoundResult.round_number = _
      rw [ihk, hkeys, round_number_eq, List.append_assoc, List.singleton_append,
        List.range'_succ]

/-- C6: starting from a fresh election state, N calls to the round runner
persist outcomes for exactly the round numbers 1..N, in order, with no
gaps or repeats; the final round number is N, and every k in 1..N has a
stored outcome carrying round number k. -/
theorem rounds_one_to_n (cardinals : List Cardinal) (oracle : Nat → Nat → OracleOutcome)
    (rand : Nat → Nat → Nat) (N : Nat) :
    (run_rounds oracle rand N (init_conclave cardinals)).ledger.map
      RoundResult.round_number = List.range' 1 N ∧
    (run_rounds oracle rand N (init_conclave cardinals)).round_number = N ∧
    ∀ k, 1 ≤ k → k ≤ N →
      ∃ rr ∈ (run_rounds oracle rand N (init_conclave cardinals)).ledger,
        rr.round_number = k := by
  obtain ⟨hn, hk⟩ := run_rounds_ledger_keys oracle rand N (init_conclave cardinals)
    (by simp [init_conclave])
  have hk' : (run_rounds oracle rand N (init_conclave cardinals)).ledger.map
      RoundResult.round_number = List.range' 1 N := by
    simpa [init_conclave] using hk
  have hn' : (run_rounds oracle rand N (init_conclave cardinals)).round_number = N := by
    simpa [init_conclave] using hn
  refine ⟨hk', hn', ?_⟩
  intro k h1 h2
  have hkmem : k ∈ (run_rounds oracle rand N (init_conclave cardinals)).ledger.map
      RoundResult.round_number := by
    rw [hk']
    exact List.mem_range'_1.2 ⟨h1, by omega⟩
  rcases List.mem_map.1 hkmem with ⟨rr, hrr, hrrk⟩
  exact ⟨rr, hrr, hrrk⟩

/-- Witness for C6: after two rounds from a fresh state over the sample
roster, an outcome carrying round number 2 is stored. -/
theorem rounds_one_to_n_witness :
    ∃ rr ∈ (run_rounds (fun _ _ => OracleOutcome.ok "Pietro Parolin") (fun _ _ => 0) 2
        (init_conclave sampleRoster)).ledger, rr.round_number = 2 :=
  (rounds_one_to_n sampleRoster (fun _ _ => OracleOutcome.ok "Pietro Parolin")
    (fun _ _ => 0) 2).2.2 2 (by decide) (by decide)

/-- C4: when the oracle response does not resolve to an eligible roster
member (and no oracle error was raised), the vote follows the layered
fallback — most recent prior vote if the history is non-empty; else the
first-encountered frontrunner of maximal support ratio if the frontrunner
set is non-empty; else the externally drawn random choice from the
eligible roster. -/
theorem invalid_response_policy (cardinals : List Cardinal) (eligible : List String)
    (fr : List (String × Rat)) (c : Cardinal) (raw : String) (rand : Nat)
    (hres : find_matching_cardinal cardinals raw = none ∨
      ∃ v, find_matching_cardinal cardinals raw = some v ∧ v ∉ eligible) :
    agent_vote cardinals eligible fr c (OracleOutcome.ok raw) rand =
      invalid_fallback c fr eligible rand ∧
    (∀ vr, c.voting_history.getLast? = some vr →
      invalid_fallback c fr eligible rand = vr.voted_for) ∧
    (c.voting_history = [] → fr ≠ [] →
      ∃ p, maxBySupport fr = some p ∧ invalid_fallback c fr eligible rand = p.1 ∧
        ∃ l₁ l₂, fr = l₁ ++ p :: l₂ ∧ (∀ q ∈ l₁, q.2 < p.2) ∧ (∀ q ∈ l₂, q.2 ≤ p.2)) ∧
    (c.voting_history = [] → fr = [] →
      invalid_fallback c fr eligible rand = random_choice eligible rand ∧
      (eligible ≠ [] → random_choice eligible rand ∈ eligible)) := by
  refine ⟨?_, ?_, ?_, ?_⟩
  · rcases hres with h | ⟨v, hv, hnv⟩
    · simp only [agent_vote, h]
    · simp only [agent_vote, hv, if_neg hnv]
  · intro vr h
    simp only [invalid_fallback, h]
  · intro h0 hfr
    match hm : fr with
    | [] => exact absurd rfl hfr
    | x :: xs =>
      refine ⟨_, rfl, ?_, ?_⟩
      · simp only [invalid_fallback, h0, List.getLast?_nil, maxBySupport]
      · exact foldl_pymax_split Prod.snd xs x
  · intro h0 hfr0
    subst hfr0
    constructor
    · simp only [invalid_fallback, h0, List.getLast?_nil, maxBySupport]
    · exact fun hne => random_choice_mem eligible rand hne

/-- Witness for C4: an unresolvable oracle response makes a cardinal with
prior history re-cast its previous vote. -/
theorem invalid_response_policy_witness :
    agent_vote sampleRoster ["Pietro Parolin", "Jose Gomez", "Luis Tagle"] []
      cardBvoted (OracleOutcome.ok "garbage") 7 = "Luis Tagle" := by
  have h := invalid_response_policy sampleRoster
    ["Pietro Parolin", "Jose Gomez", "Luis Tagle"] [] cardBvoted "garbage" 7
    (Or.inl (by decide))
  rw [h.1, h.2.1 ⟨1, "Luis Tagle"⟩ (by decide)]

/-- NFKD decomposition distributes over appending. -/
theorem nfkd_append (a b : List Char) : nfkd (a ++ b) = nfkd a ++ nfkd b := by
  unfold nfkd
  exact List.flatMap_append a b nfkd_char

/-- Mark stripping distributes over appending. -/
theorem stripMarks_append (a b : List Char) :
    stripMarks (a ++ b) = stripMarks a ++ stripMarks b := by
  unfold stripMarks
  exact List.filter_append a b

/-- Combining marks are outside the decomposition table, hence fixed by
decomposition. -/
theorem nfkd_char_combining (m : Char) (h : combining m = true) : nfkd_char m = [m] := by
  have h' : 0x300 ≤ m.toNat ∧ m.toNat ≤ 0x36F := of_decide_eq_true h
  unfold nfkd_char
  rw [if_neg (by intro he; subst he; exact absurd h' (by decide)),
    if_neg (by intro he; subst he; exact absurd h' (by decide)),
    if_neg (by intro he; subst he; exact absurd h' (by decide)),
    if_neg (by intro he; subst he; exact absurd h' (by decide)),
    if_neg (by intro he; subst he; exact absurd h' (by decide)),
    if_neg (by intro he; subst he; exact absurd h' (by decide)),
    if_neg (by intro he; subst he; exact absurd h' (by decide)),
    if_neg (by intro he; subst he; exact absurd h' (by decide)),
    if_neg (by intro he; subst he; exact absurd h' (by decide))]

/-- Two strings with the same stripped decomposition normalize alike. -/
theorem normalizeChars_strip_eq (s t : List Char)
    (h : stripMarks (nfkd s) = stripMarks (nfkd t)) :
    normalizeChars s = normalizeChars t := by
  unfold normalizeChars
  rw [h]

/-- Inserting a combining mark anywhere does not change normalization. -/
theorem normalize_insert_mark (a b : List Char) (m : Char) (h : combining m = true) :
    normalizeChars (a ++ m :: b) = normalizeChars (a ++ b) := by
  apply normalizeChars_strip_eq
  have hm : stripMarks (nfkd [m]) = [] := by
    unfold nfkd stripMarks
    simp [nfkd_char_combining m h, h]
  calc stripMarks (nfkd (a ++ m :: b))
      = stripMarks (nfkd a) ++ stripMarks (nfkd [m]) ++ stripMarks (nfkd b) := by
        rw [show a ++ m :: b = a ++ [m] ++ b by simp, nfkd_append, nfkd_append,
          stripMarks_append, stripMarks_append]
    _ = stripMarks (nfkd a) ++ stripMarks (nfkd b) := by rw [hm]; simp
    _ = stripMarks (nfkd (a ++ b)) := by rw [nfkd_append, stripMarks_append]

/-- Replacing a base character by its precomposed accented form does not
change normalization. -/
theorem normalize_accent (a b : List Char) (d base mark : Char)
    (hd : nfkd_char d = [base, mark]) (hm : combining mark = true)
    (hb : nfkd_char base = [base]) (hcb : combining base = false) :
    normalizeChars (a ++ d :: b) = normalizeChars (a ++ base :: b) := by
  apply normalizeChars_strip_eq
  have h1 : stripMarks (nfkd [d]) = [base] := by
    unfold nfkd stripMarks
    simp [hd, hm, hcb]
  have h2 : stripMarks (nfkd [base]) = [base] := by
    unfold nfkd stripMarks
    simp [hb, hcb]
  calc stripMarks (nfkd (a ++ d :: b))
      = stripMarks (nfkd a) ++ stripMarks (nfkd [d]) ++ stripMarks (nfkd b) := by
        rw [show a ++ d :: b = a ++ [d] ++ b by simp, nfkd_append, nfkd_append,
          stripMarks_append, stripMarks_append]
    _ = stripMarks (nfkd a) ++ stripMarks (nfkd [base]) ++ stripMarks (nfkd b) := by
        rw [h1, h2]
    _ = stripMarks (nfkd (a ++ base :: b)) := by
        rw [show a ++ base :: b = a ++ [base] ++ b by simp, nfkd_append, nfkd_append,
          stripMarks_append, stripMarks_append]

/-- Folding a space onto the split state twice is the same as once. -/
theorem wordsAux_space_idem (z : List Char × List (List Char)) :
    wordsAux ' ' (wordsAux ' ' z) = wordsAux ' ' z := by
  have hw : ' '.isWhitespace = true := by decide
  simp [wordsAux, hw]

/-- Splitting into words collapses a doubled space. -/
theorem splitWords_double_space (a b : List Char) :
    splitWords (a ++ ' ' :: ' ' :: b) = splitWords (a ++ ' ' :: b) := by
  unfold splitWords
  rw [List.foldr_append, List.foldr_append]
  simp only [List.foldr_cons]
  rw [wordsAux_space_idem]

/-- Stripping and decomposing around an explicit space. -/
theorem strip_nfkd_space (a t : List Char) :
    stripMarks (nfkd (a ++ ' ' :: t)) =
      stripMarks (nfkd a) ++ ' ' :: stripMarks (nfkd t) := by
  rw [show a ++ ' ' :: t = a ++ [' '] ++ t by simp, nfkd_append, nfkd_append,
    stripMarks_append, stripMarks_append]
  rw [show stripMarks (nfkd [' ']) = [' '] by decide]
  simp

/-- Stripping and decomposing past a leading space. -/
theorem strip_nfkd_space_cons (t : List Char) :
    stripMarks (nfkd (' ' :: t)) = ' ' :: stripMarks (nfkd t) := by
  rw [show (' ' :: t) = [' '] ++ t from rfl, nfkd_append, stripMarks_append,
    show stripMarks (nfkd [' ']) = [' '] by decide]
  rfl

/-- Doubling an internal space does not change normalization. -/
theorem normalize_double_space (a b : List Char) :
    normalizeChars (a ++ ' ' :: ' ' :: b) = normalizeChars (a ++ ' ' :: b) := by
  unfold normalizeChars
  rw [strip_nfkd_space a (' ' :: b), strip_nfkd_space_cons b, strip_nfkd_space a b]
  rw [splitWords_double_space]

/-- C8: resolution returns the first roster name whose normalized form
equals the normalized input (`none` when no entry matches); on a roster
whose normalized names are pairwise distinct, every input normalizing
like a roster name — in particular the name itself, or a variant with
inserted combining marks, precomposed accents or doubled internal spaces,
all of which normalize identically — resolves back to that very name. -/
theorem resolver_roundtrip (cardinals : List Cardinal)
    (hnd : (cardinals.map (fun d => normalize_name d.name)).Nodup)
    (c : Cardinal) (hc : c ∈ cardinals) (v : String)
    (hv : normalize_name v = normalize_name c.name) :
    find_matching_cardinal cardinals v = some c.name ∧
    (∀ w : String, (∀ d ∈ cardinals, normalize_name d.name ≠ normalize_name w) →
      find_matching_cardinal cardinals w = none) ∧
    (∀ (w : String) (r : String), find_matching_cardinal cardinals w = some r →
      ∃ l₁ d l₂, cardinals = l₁ ++ d :: l₂ ∧ d.name = r ∧
        normalize_name d.name = normalize_name w ∧
        ∀ e ∈ l₁, normalize_name e.name ≠ normalize_name w) ∧
    (∀ (a b : List Char) (m : Char), combining m = true →
      normalizeChars (a ++ m :: b) = normalizeChars (a ++ b)) ∧
    (∀ a b : List Char,
      normalizeChars (a ++ ' ' :: ' ' :: b) = normalizeChars (a ++ ' ' :: b)) ∧
    (∀ a b : List Char, normalizeChars (a ++ 'é' :: b) = normalizeChars (a ++ 'e' :: b)) := by
  refine ⟨?_, ?_, ?_, normalize_insert_mark, normalize_double_space, ?_⟩
  · obtain ⟨l₁, l₂, rfl⟩ := List.append_of_mem hc
    unfold find_matching_cardinal
    rw [find?_append_of_fail]
    · rw [List.find?_cons_of_pos _ (by rw [beq_iff_eq]; exact hv.symm)]
      rfl
    · intro d hd
      rw [Bool.eq_false_iff]
      intro hdv
      rw [List.map_append, List.map_cons, List.nodup_append] at hnd
      exact hnd.2.2 (List.mem_map_of_mem _ hd)
        (by rw [beq_iff_eq.1 hdv, hv]; exact List.mem_cons_self _ _)
  · intro w hw
    unfold find_matching_cardinal
    rw [List.find?_eq_none.2]
    · rfl
    · intro d hd
      simp only [beq_iff_eq]
      exact hw d hd
  · intro w r hr
    unfold find_matching_cardinal at hr
    rcases Option.map_eq_some'.1 hr with ⟨d, hfind, rfl⟩
    obtain ⟨hd, l₁, l₂, rfl, hfail⟩ := find?_split _ _ _ hfind
    refine ⟨l₁, d, l₂, rfl, rfl, beq_iff_eq.1 hd, ?_⟩
    intro e he
    have := hfail e he
    rw [Bool.eq_false_iff] at this
    intro hcon
    exact this (beq_iff_eq.2 hcon)
  · intro a b
    exact normalize_accent a b 'é' 'e' acuteAccent (by decide) (by decide)
      (by decide) (by decide)

/-- Witness for C8: "José  Gomez" — an accented, doubly spaced variant —
resolves to the roster name "Jose Gomez". -/
theorem resolver_roundtrip_witness :
    find_matching_cardinal sampleRoster "José  Gomez" = some "Jose Gomez" :=
  (resolver_roundtrip sampleRoster (by decide) cardB
    (List.mem_cons_of_mem cardA (List.mem_cons_self cardB [cardC]))
    "José  Gomez" (by decide)).1

/-- Counterexample to C9 as stated: a cardinal with a non-empty voting
history gets a prompt with no prior-vote line when the ledger holds no
previous-round outcome — the prior-vote line is only emitted inside the
previous-round block. -/
theorem prompt_prior_vote_counterexample :
    cardBvoted.voting_history ≠ [] ∧
    ∀ part ∈ get_voting_prompt [] [] 1 cardBvoted
        ["Pietro Parolin", "Jose Gomez", "Luis Tagle"],
      part ≠ PromptPart.lastVote "Luis Tagle" := by
  refine ⟨by decide, ?_⟩
  decide

/-- C9 (amended): whenever the previous round's outcome exists in the
ledger and the agent's history is non-empty, the constructed prompt
contains the agent's most recent prior vote. -/
theorem prompt_prior_vote (ledger : List RoundResult) (fr : List (String × Rat))
    (round_number : Nat) (c : Cardinal) (eligible : List String)
    (pr : RoundResult) (hpr : get_round_result ledger (round_number - 1) = some pr)
    (vr : VotingRecord) (hvr : c.voting_history.getLast? = some vr) :
    PromptPart.lastVote vr.voted_for ∈
      get_voting_prompt ledger fr round_number c eligible := by
  unfold get_voting_prompt
  simp only [hpr, hvr]
  simp [List.mem_append]

/-- Witness for the amended C9: with round 1's outcome in the ledger, the
round-2 prompt for a cardinal who voted Luis Tagle contains that prior
vote. -/
theorem prompt_prior_vote_witness :
    PromptPart.lastVote "Luis Tagle" ∈
      get_voting_prompt [rr1] [] 2 cardBvoted
        ["Pietro Parolin", "Jose Gomez", "Luis Tagle"] :=
  prompt_prior_vote [rr1] [] 2 cardBvoted
    ["Pietro Parolin", "Jose Gomez", "Luis Tagle"] rr1 (by decide)
    ⟨1, "Luis Tagle"⟩ (by decide)

end Conclave
